import Mathlib

/-!
Verification of the `rust-numerals` Roman-numeral and balanced-ternary
conversion library (`src/roman.rs`, `src/bt.rs`), as a shallow embedding.

Modelling conventions:
* The seven Roman symbols become the inductive type `Numeral`; weights are
  the source's `Numeral::value` table.
* Sequences of numerals (`Roman { numerals: Vec<Numeral> }`) are `List Numeral`.
* The `i16` arithmetic of `Roman::value` is embedded with exact `Int`
  arithmetic; the `i16` semantics coincides with this model on every run in
  which no step leaves the `i16` range, which is exactly what
  `Roman::value_checked` certifies (its `checked_add` is embedded with the
  explicit range `[-32768, 32767]`).
* The `assert!(number > 0)` panic in `From<i16> for Roman` and the
  `unreachable!` panic paths are embedded as `Option` failures (`none`).
* Rust `while` loops become well-founded recursions on the decreasing
  remainder.
-/

/-- An individual Roman numeral (source: `enum Numeral` in `roman.rs`). -/
inductive Numeral where
  | I | V | X | L | C | D | M
deriving DecidableEq, Repr

namespace Numeral

/-- The weight table of `Numeral::value` (an `i16` in the source, embedded
as `Int`). -/
def value : Numeral → Int
  | I => 1
  | V => 5
  | X => 10
  | L => 50
  | C => 100
  | D => 500
  | M => 1000

/-- The same weight table viewed as a natural number; the encoder tracks the
remaining amount as a `Nat` (the source `i16` stays nonnegative there), so it
compares against this form.  `value_eq_valueN` ties the two together. -/
def valueN : Numeral → Nat
  | I => 1
  | V => 5
  | X => 10
  | L => 50
  | C => 100
  | D => 500
  | M => 1000

theorem value_eq_valueN (s : Numeral) : s.value = (s.valueN : Int) := by
  cases s <;> rfl

theorem valueN_pos (s : Numeral) : 0 < s.valueN := by
  cases s <;> simp [valueN]

/-- Source `Numeral::ascii_upper`. -/
def ascii_upper : Numeral → Char
  | I => 'I'
  | V => 'V'
  | X => 'X'
  | L => 'L'
  | C => 'C'
  | D => 'D'
  | M => 'M'

/-- Source `Numeral::ascii_lower`. -/
def ascii_lower : Numeral → Char
  | I => 'i'
  | V => 'v'
  | X => 'x'
  | L => 'l'
  | C => 'c'
  | D => 'd'
  | M => 'm'

/-- Source `Numeral::from_char`: the source matches `'I' | 'i' => Some(I)` and so
on, with a catch-all `None`. -/
def from_char (c : Char) : Option Numeral :=
  if c = 'I' ∨ c = 'i' then some I
  else if c = 'V' ∨ c = 'v' then some V
  else if c = 'X' ∨ c = 'x' then some X
  else if c = 'L' ∨ c = 'l' then some L
  else if c = 'C' ∨ c = 'c' then some C
  else if c = 'D' ∨ c = 'd' then some D
  else if c = 'M' ∨ c = 'm' then some M
  else none

end Numeral

namespace Roman

open Numeral

/-- Source `Roman::parse`: scan the characters left to right, converting each via
`Numeral::from_char`; the `?` operator makes the first failure abort the
whole parse with `None`. -/
def parse : List Char → Option (List Numeral)
  | [] => some []
  | c :: rest =>
    match Numeral.from_char c with
    | none => none
    | some n => (parse rest).map (fun ns => n :: ns)

/-- The loop body state of `Roman::value`: the running `(total, max)` pair,
updated per weight exactly as in the source (`total += if n >= max { n }
else { -n }; if max < n { max = n }`).  The list argument is the weight
sequence already put in processing order (the source iterates
`.map(value).rev()`).  The source total is an `i16` whose `+=` wraps in
release builds and panics in debug builds on overflow; this embedding uses
exact `Int` arithmetic, so it is faithful to the program exactly on runs in
which no step leaves the 16-bit range — the runs `valueCheckedAux`
certifies with `some` — and every theorem below about `value` on a
non-concrete sequence carries that certificate as a hypothesis. -/
def valueAux : List Int → Int × Int → Int × Int
  | [], s => s
  | n :: rest, s =>
    valueAux rest (s.1 + (if s.2 ≤ n then n else -n), if s.2 < n then n else s.2)

/-- Source `Roman::value` (exact-arithmetic embedding of the `i16` code;
faithful on runs certified in-range by `value_checked` — see the comment on
`valueAux` and the file comment). -/
def value (ns : List Numeral) : Int :=
  (valueAux ((ns.map Numeral.value).reverse) (0, 0)).1

/-- Source `i16::checked_add`: the sum if it fits the 16-bit signed range,
otherwise `None`. -/
def checkedAdd (a b : Int) : Option Int :=
  if -32768 ≤ a + b ∧ a + b ≤ 32767 then some (a + b) else none

/-- The loop of `Roman::value_checked`, returning the final `(total, max)`
state, or `none` as soon as one `checked_add` fails (the source's `?`). -/
def valueCheckedAux : List Int → Int × Int → Option (Int × Int)
  | [], s => some s
  | n :: rest, s =>
    match checkedAdd s.1 (if s.2 ≤ n then n else -n) with
    | none => none
    | some t => valueCheckedAux rest (t, if s.2 < n then n else s.2)

/-- Source `Roman::value_checked`: the source returns `Some(total)` at the end of
the loop, i.e. the first component of the final state. -/
def value_checked (ns : List Numeral) : Option Int :=
  (valueCheckedAux ((ns.map Numeral.value).reverse) (0, 0)).map Prod.fst

/-- Source `fmt::UpperHex for Roman`: write `ascii_upper` of each numeral in
order, no separators. -/
def render_upper (ns : List Numeral) : List Char :=
  ns.map Numeral.ascii_upper

/-- Source `fmt::LowerHex for Roman`: write `ascii_lower` of each numeral in
order, no separators. -/
def render_lower (ns : List Numeral) : List Char :=
  ns.map Numeral.ascii_lower

/-- The inner `while number >= primary.value()` loop of `From<i16> for
Roman`: push one `primary` per iteration and subtract its weight. -/
def primaryRun (p : Numeral) (m : Nat) : Nat × List Numeral :=
  if _h : p.valueN ≤ m then
    let rest := primaryRun p (m - p.valueN)
    (rest.1, p :: rest.2)
  else
    (m, [])
termination_by m
decreasing_by
  have := p.valueN_pos
  omega

/-- One iteration of the `for &(secondary, primary) in ...` loop of
`From<i16> for Roman`: the repetition loop, then the subtractive-pair
lookahead (`difference = primary - secondary`). -/
def subPair (sec pri : Numeral) (m : Nat) : Nat × List Numeral :=
  let r := primaryRun pri m
  let d := pri.valueN - sec.valueN
  if d ≤ r.1 then (r.1 - d, r.2 ++ [sec, pri]) else r

/-- The six `(secondary, primary)` pairs, in the source's order. -/
def romanPairs : List (Numeral × Numeral) :=
  [(C, M), (C, D), (X, C), (X, L), (I, X), (I, V)]

/-- The outer pair loop of `From<i16> for Roman`: thread the remaining
amount through `subPair`, concatenating the pushed segments in order. -/
def pairsRun : List (Numeral × Numeral) → Nat → Nat × List Numeral
  | [], m => (m, [])
  | (sec, pri) :: rest, m =>
    let s := subPair sec pri m
    let t := pairsRun rest s.1
    (t.1, s.2 ++ t.2)

/-- The trailing `while number > 0 { number -= 1; numerals.push(I) }` loop
of `From<i16> for Roman`. -/
def trailingI : Nat → List Numeral
  | 0 => []
  | n + 1 => I :: trailingI n

/-- The body of `From<i16> for Roman` after the positivity assertion, on
the (nonnegative) remaining amount. -/
def encodeN (m : Nat) : List Numeral :=
  let r := pairsRun romanPairs m
  r.2 ++ trailingI r.1

/-- Source `From<i16> for Roman`: the `assert!(number > 0)` panics on nonpositive
input, embedded as `none`; otherwise run the encode loops. -/
def fromI16 (n : Int) : Option (List Numeral) :=
  if n ≤ 0 then none else some (encodeN n.toNat)

end Roman

/-! ## Balanced ternary (`src/bt.rs`) -/

/-- A balanced-ternary digit (source: `enum Trit` in `bt.rs`). -/
inductive Trit where
  | Minus | Zero | Plus
deriving DecidableEq, Repr

/-- Source `Trit::value` (an `i64` in the source, embedded as `Int`). -/
def Trit.value : Trit → Int
  | Trit.Minus => -1
  | Trit.Zero => 0
  | Trit.Plus => 1

namespace BalancedTernary

/-- Source `BalancedTernary::value`: `fold(0, |sum, trit| sum * 3 + trit.value())`
over the trits in most-significant-first order. -/
def value (ts : List Trit) : Int :=
  ts.foldl (fun sum t => sum * 3 + t.value) 0

/-- The digit-emitting loop of `From<i64> for BalancedTernary`, on the
nonnegative inputs the claim is about (for `input >= 0` Rust's `%` and `/`
agree with `Nat` division, so the loop is embedded on `Nat`; the source
matches `input % 3` against `0`, `1`, `2`).  Digits come out
least-significant first, exactly as the source pushes them. -/
def toTrits (n : Nat) : List Trit :=
  if h0 : n = 0 then []
  else if h1 : n % 3 = 0 then Trit.Zero :: toTrits (n / 3)
  else if h2 : n % 3 = 1 then Trit.Plus :: toTrits (n / 3)
  else Trit.Minus :: toTrits ((n + 1) / 3)
termination_by n
decreasing_by all_goals omega

/-- Source `From<i64> for BalancedTernary` on nonnegative input: run the loop and
then `trits.reverse()`. -/
def fromI64 (n : Nat) : List Trit :=
  (toTrits n).reverse

/-- The value of a least-significant-first digit list (proof helper). -/
def tritsVal : List Trit → Int
  | [] => 0
  | t :: ts => t.value + 3 * tritsVal ts

theorem value_reverse (l : List Trit) : value l.reverse = tritsVal l := by
  induction l with
  | nil => rfl
  | cons t ts ih =>
    simp only [List.reverse_cons, value, List.foldl_append, List.foldl_cons,
      List.foldl_nil, tritsVal]
    rw [show (ts.reverse.foldl (fun sum t => sum * 3 + t.value) 0) = value ts.reverse from rfl]
    rw [ih]
    ring

theorem tritsVal_toTrits : ∀ n : Nat, tritsVal (toTrits n) = (n : Int) := by
  intro n
  induction n using Nat.strong_induction_on with
  | _ n ih =>
    rw [toTrits]
    split_ifs with h0 h1 h2
    · simp only [tritsVal]
      omega
    · rw [tritsVal, ih (n / 3) (by omega), Trit.value]
      omega
    · rw [tritsVal, ih (n / 3) (by omega), Trit.value]
      omega
    · rw [tritsVal, ih ((n + 1) / 3) (by omega), Trit.value]
      omega

end BalancedTernary

/-- C10: in the balanced-ternary module, encoding then decoding is the
identity on every nonnegative integer: `BalancedTernary::from(n).value() == n`
(with exact integer arithmetic; negative inputs are outside the guarantee
and outside this embedding's domain). -/
theorem claim_C10_bt_roundtrip (n : Nat) :
    BalancedTernary.value (BalancedTernary.fromI64 n) = (n : Int) := by
  rw [BalancedTernary.fromI64, BalancedTernary.value_reverse,
    BalancedTernary.tritsVal_toTrits]

/-- C10 witness: the round trip at the concrete input 4321. -/
theorem claim_C10_witness :
    BalancedTernary.value (BalancedTernary.fromI64 4321) = (4321 : Int) :=
  claim_C10_bt_roundtrip 4321

/-! ## Decode: spec-side description and the checked/unchecked relation -/

/-- One decode step exactly as §4.2 of the spec words it: add the weight if
`w >= max_seen`, else subtract it; then `max_seen = max(max_seen, w)`.
This is the spec-side definition used for the refinement claim C2. -/
def decodeStep (s : Int × Int) (k : Numeral) : Int × Int :=
  (s.1 + (if s.2 ≤ k.value then k.value else -k.value), max s.2 k.value)

/-- Spec-side decode: fold `decodeStep` over the symbols in reverse order,
starting from total `0` and maximum `0`. -/
def decodeSpec (ns : List Numeral) : Int :=
  (ns.reverse.foldl decodeStep (0, 0)).1

theorem valueAux_map_foldl (l : List Numeral) :
    ∀ s, Roman.valueAux (l.map Numeral.value) s = l.foldl decodeStep s := by
  induction l with
  | nil => intro s; rfl
  | cons k rest ih =>
    intro s
    simp only [List.map_cons, Roman.valueAux, List.foldl_cons]
    rw [ih]
    have h2 : (if s.2 < k.value then k.value else s.2) = max s.2 k.value := by
      rcases le_or_lt k.value s.2 with h | h
      · rw [if_neg (not_lt.mpr h), max_eq_left h]
      · rw [if_pos h, max_eq_right h.le]
    simp only [decodeStep]
    rw [h2]

/-- C2 counterexample: the original claim asserts the exact
running-total value for every sequence, but on 33 `M` symbols that value
is 33000, outside the `i16` range the source's `Roman::value` returns;
every step-checked `i16` run of the same algorithm overflows there
(`value_checked` is `none` — the step `32000 + 1000` fails
`checked_add`, where a debug build's `total +=` panics, as the
repository's own `value_panic_on_large` test expects, and a release
build wraps), so the program's decode cannot compute the total the
claim asserts on this input. -/
theorem claim_C2_counterexample :
    decodeSpec (List.replicate 33 Numeral.M) = 33000
    ∧ 32767 < decodeSpec (List.replicate 33 Numeral.M)
    ∧ Roman.value_checked (List.replicate 33 Numeral.M) = none := by
  refine ⟨?_, ?_, ?_⟩ <;> decide

/-- C2 (amended): on every sequence of symbols (canonical or not) whose
checked decode succeeds — i.e. on every run in which no step leaves the
16-bit range, exactly the runs where the source's `i16` arithmetic
computes the exact total rather than wrapping or panicking —
`Roman::value` computes exactly the reverse-order
running-total/running-maximum algorithm described by the spec, and the
empty sequence decodes to `0`. -/
theorem claim_C2_decode_algorithm :
    (∀ (ns : List Numeral) (v : Int), Roman.value_checked ns = some v →
        Roman.value ns = decodeSpec ns)
    ∧ Roman.value [] = 0 := by
  constructor
  · intro ns v _hv
    rw [Roman.value, decodeSpec, ← valueAux_map_foldl, List.map_reverse]
  · rfl

/-- C2 witness: the algorithm equality at a concrete sequence whose
checked decode succeeds. -/
theorem claim_C2_witness :
    Roman.value [Numeral.I, Numeral.V] = decodeSpec [Numeral.I, Numeral.V]
    ∧ Roman.value [] = 0 :=
  ⟨claim_C2_decode_algorithm.1 [Numeral.I, Numeral.V] 4 (by decide),
   claim_C2_decode_algorithm.2⟩

theorem vca_sound :
    ∀ (l : List Int) (s t : Int × Int),
      Roman.valueCheckedAux l s = some t → Roman.valueAux l s = t := by
  intro l
  induction l with
  | nil =>
    intro s t h
    rw [Roman.valueCheckedAux] at h
    cases h
    rfl
  | cons n rest ih =>
    intro s t h
    rw [Roman.valueCheckedAux] at h
    rw [Roman.valueAux]
    rcases hadd : Roman.checkedAdd s.1 (if s.2 ≤ n then n else -n) with _ | u
    · rw [hadd] at h
      cases h
    · simp only [hadd] at h
      have hu : u = s.1 + (if s.2 ≤ n then n else -n) := by
        rw [Roman.checkedAdd] at hadd
        by_cases hr : -32768 ≤ s.1 + (if s.2 ≤ n then n else -n)
            ∧ s.1 + (if s.2 ≤ n then n else -n) ≤ 32767
        · rw [if_pos hr] at hadd
          injection hadd with hv
          exact hv.symm
        · rw [if_neg hr] at hadd
          cases hadd
      rw [← hu]
      exact ih _ _ h

/-- C4: `Roman::value_checked` runs the same algorithm as `Roman::value`
with each addition overflow-checked against the 16-bit signed range:
whenever it returns `Some v`, the unchecked decode computes the same `v`,
and on a run of 54 `M` symbols (true value 54000) it returns `None`. -/
theorem claim_C4_checked_decode :
    (∀ (ns : List Numeral) (v : Int),
        Roman.value_checked ns = some v → Roman.value ns = v)
    ∧ Roman.value_checked (List.replicate 54 Numeral.M) = none := by
  constructor
  · intro ns v h
    rw [Roman.value_checked] at h
    obtain ⟨t, ht, hv⟩ := Option.map_eq_some'.mp h
    rw [Roman.value, vca_sound _ _ _ ht]
    exact hv
  · decide

/-- C4 witness: the checked/unchecked agreement applied at a concrete
sequence whose checked decode succeeds. -/
theorem claim_C4_witness : Roman.value [Numeral.I, Numeral.X] = 9 :=
  claim_C4_checked_decode.1 [Numeral.I, Numeral.X] 9 (by decide)

/-- C5: encoding fails (the `assert!(number > 0)` failure, embedded as the
error result `none`) exactly on nonpositive input, and succeeds with a
sequence on every positive input. -/
theorem claim_C5_encode_precondition (n : Int) :
    (n ≤ 0 → Roman.fromI16 n = none) ∧ (0 < n → ∃ s, Roman.fromI16 n = some s) := by
  constructor
  · intro h
    rw [Roman.fromI16, if_pos h]
  · intro h
    exact ⟨Roman.encodeN n.toNat, by rw [Roman.fromI16, if_neg (by omega)]⟩

/-- C5 witness: the precondition at `0` and `-5`, and success at `7`. -/
theorem claim_C5_witness :
    Roman.fromI16 0 = none ∧ Roman.fromI16 (-5) = none
    ∧ ∃ s, Roman.fromI16 7 = some s :=
  ⟨(claim_C5_encode_precondition 0).1 (by norm_num),
   (claim_C5_encode_precondition (-5)).1 (by norm_num),
   (claim_C5_encode_precondition 7).2 (by norm_num)⟩

/-! ## Parse: failure behavior, case insensitivity, render round trip -/

/-- C6 counterexample: `Roman::parse` signals failure with a bare `None`
that cannot carry the offending character's position: the inputs `"AX"`
and `"XA"` have their first unmappable character at positions 0 and 1
respectively, yet `parse` returns the very same value for both, so the
failure result carries no position. -/
theorem claim_C6_counterexample :
    Roman.parse "AX".toList = Roman.parse "XA".toList
    ∧ Roman.parse "AX".toList = none
    ∧ "AX".toList.findIdx (fun c => (Numeral.from_char c).isNone) = 0
    ∧ "XA".toList.findIdx (fun c => (Numeral.from_char c).isNone) = 1 := by
  refine ⟨?_, ?_, ?_, ?_⟩ <;> decide

/-- C6 (amended): for every input string, parse either succeeds — one
symbol per character, in original order, the empty string giving the empty
sequence — or fails as a whole with `None` (carrying no position
information) exactly when some character has no symbol mapping, producing
no partial sequence; in particular `parse("XIIA")` fails. -/
theorem claim_C6_parse_behavior :
    Roman.parse "".toList = some []
    ∧ (∀ (cs : List Char) (ns : List Numeral), Roman.parse cs = some ns →
        List.Forall₂ (fun c n => Numeral.from_char c = some n) cs ns)
    ∧ (∀ cs : List Char,
        Roman.parse cs = none ↔ ∃ c ∈ cs, Numeral.from_char c = none)
    ∧ Roman.parse "XIIA".toList = none := by
  refine ⟨rfl, ?_, ?_, by decide⟩
  · intro cs
    induction cs with
    | nil =>
      intro ns h
      rw [Roman.parse] at h
      cases h
      exact List.Forall₂.nil
    | cons c rest ih =>
      intro ns h
      rw [Roman.parse] at h
      rcases hc : Numeral.from_char c with _ | n
      · rw [hc] at h
        cases h
      · simp only [hc] at h
        obtain ⟨ns', h1, h2⟩ := Option.map_eq_some'.mp h
        rw [← h2]
        exact List.Forall₂.cons hc (ih ns' h1)
  · intro cs
    induction cs with
    | nil =>
      simp [Roman.parse]
    | cons c rest ih =>
      rw [Roman.parse]
      rcases hc : Numeral.from_char c with _ | n
      · simp only [List.mem_cons]
        constructor
        · intro _
          exact ⟨c, Or.inl rfl, hc⟩
        · intro _
          trivial
      · simp only [Option.map_eq_none', ih, List.mem_cons]
        constructor
        · rintro ⟨d, hd, hnone⟩
          exact ⟨d, Or.inr hd, hnone⟩
        · rintro ⟨d, hd | hd, hnone⟩
          · rw [← hd] at hc
            rw [hc] at hnone
            cases hnone
          · exact ⟨d, hd, hnone⟩

/-- C6 witness: the success characterization applied at `"XI"`, and the
failure characterization applied at `"A"`. -/
theorem claim_C6_witness :
    List.Forall₂ (fun c n => Numeral.from_char c = some n) "XI".toList
      [Numeral.X, Numeral.I]
    ∧ (Roman.parse "A".toList = none ↔
        ∃ c ∈ "A".toList, Numeral.from_char c = none) :=
  ⟨claim_C6_parse_behavior.2.1 "XI".toList [Numeral.X, Numeral.I] (by decide),
   claim_C6_parse_behavior.2.2.1 "A".toList⟩

/-- C8: `Numeral::from_char` maps both cases of each of the seven letters
to the same symbol, fails on every other character, and consequently
`parse("xxvii")` and `parse("XXVII")` yield equal sequences. -/
theorem claim_C8_case_insensitive :
    (Numeral.from_char 'I' = some Numeral.I ∧ Numeral.from_char 'i' = some Numeral.I
     ∧ Numeral.from_char 'V' = some Numeral.V ∧ Numeral.from_char 'v' = some Numeral.V
     ∧ Numeral.from_char 'X' = some Numeral.X ∧ Numeral.from_char 'x' = some Numeral.X
     ∧ Numeral.from_char 'L' = some Numeral.L ∧ Numeral.from_char 'l' = some Numeral.L
     ∧ Numeral.from_char 'C' = some Numeral.C ∧ Numeral.from_char 'c' = some Numeral.C
     ∧ Numeral.from_char 'D' = some Numeral.D ∧ Numeral.from_char 'd' = some Numeral.D
     ∧ Numeral.from_char 'M' = some Numeral.M ∧ Numeral.from_char 'm' = some Numeral.M)
    ∧ (∀ c : Char, Numeral.from_char c = none ↔
        c ∉ (['I', 'i', 'V', 'v', 'X', 'x', 'L', 'l', 'C', 'c', 'D', 'd',
              'M', 'm'] : List Char))
    ∧ Roman.parse "xxvii".toList = Roman.parse "XXVII".toList := by
  refine ⟨by decide, ?_, by decide⟩
  intro c
  by_cases hm : c ∈ (['I', 'i', 'V', 'v', 'X', 'x', 'L', 'l', 'C', 'c', 'D', 'd',
      'M', 'm'] : List Char)
  · simp only [List.mem_cons, List.not_mem_nil, or_false] at hm
    rcases hm with rfl | rfl | rfl | rfl | rfl | rfl | rfl | rfl | rfl | rfl | rfl
      | rfl | rfl | rfl <;> decide
  · simp only [hm, not_false_iff, iff_true]
    simp only [List.mem_cons, List.not_mem_nil, or_false, not_or] at hm
    obtain ⟨a1, a2, a3, a4, a5, a6, a7, a8, a9, a10, a11, a12, a13, a14⟩ := hm
    simp [Numeral.from_char, a1, a2, a3, a4, a5, a6, a7, a8, a9, a10, a11, a12,
      a13, a14]

/-- C9: parsing the uppercase or lowercase rendering of any symbol
sequence gives back exactly that sequence. -/
theorem claim_C9_render_parse_roundtrip (ns : List Numeral) :
    Roman.parse (Roman.render_upper ns) = some ns
    ∧ Roman.parse (Roman.render_lower ns) = some ns := by
  induction ns with
  | nil => exact ⟨rfl, rfl⟩
  | cons n rest ih =>
    constructor
    · simp only [Roman.render_upper, List.map_cons, Roman.parse]
      have h : Numeral.from_char n.ascii_upper = some n := by cases n <;> decide
      rw [h]
      simp only [Roman.render_upper] at ih
      rw [ih.1]
      rfl
    · simp only [Roman.render_lower, List.map_cons, Roman.parse]
      have h : Numeral.from_char n.ascii_lower = some n := by cases n <;> decide
      rw [h]
      simp only [Roman.render_lower] at ih
      rw [ih.2]
      rfl

/-! ## Encode: closed form of the greedy loops -/

theorem primaryRun_eq (p : Numeral) : ∀ m : Nat,
    Roman.primaryRun p m = (m % p.valueN, List.replicate (m / p.valueN) p) := by
  intro m
  induction m using Nat.strong_induction_on with
  | _ m ih =>
    have hp : 0 < p.valueN := p.valueN_pos
    rw [Roman.primaryRun]
    split_ifs with h
    · rw [ih (m - p.valueN) (by omega)]
      rw [Nat.mod_eq_sub_mod h, Nat.div_eq_sub_div hp h, List.replicate_succ]
    · rw [Nat.mod_eq_of_lt (by omega), Nat.div_eq_of_lt (by omega),
        List.replicate_zero]

theorem trailingI_replicate : ∀ n : Nat,
    Roman.trailingI n = List.replicate n Numeral.I := by
  intro n
  induction n with
  | zero => rfl
  | succ k ih => rw [Roman.trailingI, ih, List.replicate_succ]

/-- The symbol segment the encoder emits for one decimal digit at a given
scale, where `one`, `five` and `ten` are the symbols of weight 1, 5 and 10
times that scale (proof-side characterization of the loop output). -/
def digitPart (one five ten : Numeral) : Nat → List Numeral
  | 0 => []
  | 1 => [one]
  | 2 => [one, one]
  | 3 => [one, one, one]
  | 4 => [one, five]
  | 5 => [five]
  | 6 => [five, one]
  | 7 => [five, one, one]
  | 8 => [five, one, one, one]
  | 9 => [one, ten]
  | _ => []

theorem dp_low (a b c : Numeral) (d : Nat) (hd : d ≤ 3) :
    digitPart a b c d = List.replicate d a := by
  interval_cases d <;> rfl

theorem dp_high (a b c : Numeral) (d : Nat) (h5 : 5 ≤ d) (h8 : d ≤ 8) :
    digitPart a b c d = b :: List.replicate (d - 5) a := by
  interval_cases d <;> rfl

/-- The rest of the encoder from a given pair list on: the remaining pair
loop followed by the trailing-`I` loop. -/
def runTail (ps : List (Numeral × Numeral)) (r : Nat) : List Numeral :=
  (Roman.pairsRun ps r).2 ++ Roman.trailingI (Roman.pairsRun ps r).1

theorem encodeN_eq_runTail (m : Nat) :
    Roman.encodeN m = runTail Roman.romanPairs m := rfl

theorem runTail_nil (r : Nat) : runTail [] r = Roman.trailingI r := rfl

theorem runTail_cons (sec pri : Numeral) (rest : List (Numeral × Numeral)) (m : Nat) :
    runTail ((sec, pri) :: rest) m =
      if pri.valueN - sec.valueN ≤ m % pri.valueN then
        (List.replicate (m / pri.valueN) pri ++ [sec, pri])
          ++ runTail rest (m % pri.valueN - (pri.valueN - sec.valueN))
      else
        List.replicate (m / pri.valueN) pri ++ runTail rest (m % pri.valueN) := by
  simp only [runTail, Roman.pairsRun, Roman.subPair, primaryRun_eq]
  split_ifs with h <;> simp [List.append_assoc]

theorem runTailCM (rest : List (Numeral × Numeral)) (m : Nat) :
    runTail ((Numeral.C, Numeral.M) :: rest) m =
      if 900 ≤ m % 1000 then
        (List.replicate (m / 1000) Numeral.M ++ [Numeral.C, Numeral.M])
          ++ runTail rest (m % 1000 - 900)
      else
        List.replicate (m / 1000) Numeral.M ++ runTail rest (m % 1000) := by
  rw [runTail_cons]
  rfl

theorem runTailCD (rest : List (Numeral × Numeral)) (m : Nat) :
    runTail ((Numeral.C, Numeral.D) :: rest) m =
      if 400 ≤ m % 500 then
        (List.replicate (m / 500) Numeral.D ++ [Numeral.C, Numeral.D])
          ++ runTail rest (m % 500 - 400)
      else
        List.replicate (m / 500) Numeral.D ++ runTail rest (m % 500) := by
  rw [runTail_cons]
  rfl

theorem runTailXC (rest : List (Numeral × Numeral)) (m : Nat) :
    runTail ((Numeral.X, Numeral.C) :: rest) m =
      if 90 ≤ m % 100 then
        (List.replicate (m / 100) Numeral.C ++ [Numeral.X, Numeral.C])
          ++ runTail rest (m % 100 - 90)
      else
        List.replicate (m / 100) Numeral.C ++ runTail rest (m % 100) := by
  rw [runTail_cons]
  rfl

theorem runTailXL (rest : List (Numeral × Numeral)) (m : Nat) :
    runTail ((Numeral.X, Numeral.L) :: rest) m =
      if 40 ≤ m % 50 then
        (List.replicate (m / 50) Numeral.L ++ [Numeral.X, Numeral.L])
          ++ runTail rest (m % 50 - 40)
      else
        List.replicate (m / 50) Numeral.L ++ runTail rest (m % 50) := by
  rw [runTail_cons]
  rfl

theorem runTailIX (rest : List (Numeral × Numeral)) (m : Nat) :
    runTail ((Numeral.I, Numeral.X) :: rest) m =
      if 9 ≤ m % 10 then
        (List.replicate (m / 10) Numeral.X ++ [Numeral.I, Numeral.X])
          ++ runTail rest (m % 10 - 9)
      else
        List.replicate (m / 10) Numeral.X ++ runTail rest (m % 10) := by
  rw [runTail_cons]
  rfl

theorem runTailIV (rest : List (Numeral × Numeral)) (m : Nat) :
    runTail ((Numeral.I, Numeral.V) :: rest) m =
      if 4 ≤ m % 5 then
        (List.replicate (m / 5) Numeral.V ++ [Numeral.I, Numeral.V])
          ++ runTail rest (m % 5 - 4)
      else
        List.replicate (m / 5) Numeral.V ++ runTail rest (m % 5) := by
  rw [runTail_cons]
  rfl

theorem stageIV (r : Nat) (hr : r < 9) :
    runTail [(Numeral.I, Numeral.V)] r
      = digitPart Numeral.I Numeral.V Numeral.X r := by
  interval_cases r <;> (rw [runTailIV]; decide)

theorem stageIX (r : Nat) (_hr : r < 40) :
    runTail [(Numeral.I, Numeral.X), (Numeral.I, Numeral.V)] r
      = List.replicate (r / 10) Numeral.X
        ++ digitPart Numeral.I Numeral.V Numeral.X (r % 10) := by
  rw [runTailIX]
  split_ifs with h
  · have h9 : r % 10 = 9 := by omega
    have e0 : r % 10 - 9 = 0 := by omega
    rw [e0, stageIV 0 (by omega), h9]
    simp [digitPart]
  · rw [stageIV _ (by omega)]

theorem stageXL (r : Nat) (hr : r < 90) :
    runTail [(Numeral.X, Numeral.L), (Numeral.I, Numeral.X), (Numeral.I, Numeral.V)] r
      = digitPart Numeral.X Numeral.L Numeral.C (r / 10)
        ++ digitPart Numeral.I Numeral.V Numeral.X (r % 10) := by
  rw [runTailXL]
  split_ifs with h
  · have e0 : r / 50 = 0 := by omega
    have e1 : r % 50 - 40 = r % 10 := by omega
    have e2 : r / 10 = 4 := by omega
    rw [e0, e1, e2, stageIX _ (by omega)]
    have e3 : r % 10 / 10 = 0 := by omega
    rw [e3]
    simp [digitPart]
  · rw [stageIX _ (by omega)]
    have e3 : r % 50 % 10 = r % 10 := by omega
    rw [e3]
    rcases Nat.lt_or_ge r 50 with h50 | h50
    · have e0 : r / 50 = 0 := by omega
      have e4 : r % 50 / 10 = r / 10 := by omega
      rw [e0, e4, dp_low Numeral.X Numeral.L Numeral.C _ (by omega)]
      simp
    · have e0 : r / 50 = 1 := by omega
      have e4 : r % 50 / 10 = r / 10 - 5 := by omega
      rw [e0, e4, dp_high Numeral.X Numeral.L Numeral.C _ (by omega) (by omega)]
      simp

theorem stageXC (r : Nat) (_hr : r < 400) :
    runTail [(Numeral.X, Numeral.C), (Numeral.X, Numeral.L), (Numeral.I, Numeral.X),
        (Numeral.I, Numeral.V)] r
      = List.replicate (r / 100) Numeral.C
        ++ digitPart Numeral.X Numeral.L Numeral.C (r / 10 % 10)
        ++ digitPart Numeral.I Numeral.V Numeral.X (r % 10) := by
  rw [runTailXC]
  split_ifs with h
  · have e1 : r % 100 - 90 = r % 10 := by omega
    have e2 : r / 10 % 10 = 9 := by omega
    rw [e1, e2, stageXL _ (by omega)]
    have e3 : r % 10 / 10 = 0 := by omega
    rw [e3]
    simp [digitPart]
  · rw [stageXL _ (by omega)]
    have e1 : r % 100 / 10 = r / 10 % 10 := by omega
    have e2 : r % 100 % 10 = r % 10 := by omega
    rw [e1, e2]
    simp [List.append_assoc]

theorem stageCD (r : Nat) (hr : r < 900) :
    runTail [(Numeral.C, Numeral.D), (Numeral.X, Numeral.C), (Numeral.X, Numeral.L),
        (Numeral.I, Numeral.X), (Numeral.I, Numeral.V)] r
      = digitPart Numeral.C Numeral.D Numeral.M (r / 100)
        ++ digitPart Numeral.X Numeral.L Numeral.C (r / 10 % 10)
        ++ digitPart Numeral.I Numeral.V Numeral.X (r % 10) := by
  rw [runTailCD]
  split_ifs with h
  · have e0 : r / 500 = 0 := by omega
    have e1 : r % 500 - 400 = r % 100 := by omega
    have e2 : r / 100 = 4 := by omega
    rw [e0, e1, e2, stageXC _ (by omega)]
    have e3 : r % 100 / 100 = 0 := by omega
    have e4 : r % 100 / 10 % 10 = r / 10 % 10 := by omega
    have e5 : r % 100 % 10 = r % 10 := by omega
    rw [e3, e4, e5]
    simp [digitPart]
  · rw [stageXC _ (by omega)]
    have e4 : r % 500 / 10 % 10 = r / 10 % 10 := by omega
    have e5 : r % 500 % 10 = r % 10 := by omega
    rw [e4, e5]
    rcases Nat.lt_or_ge r 500 with h5 | h5
    · have e0 : r / 500 = 0 := by omega
      have e6 : r % 500 / 100 = r / 100 := by omega
      rw [e0, e6, dp_low Numeral.C Numeral.D Numeral.M _ (by omega)]
      simp
    · have e0 : r / 500 = 1 := by omega
      have e6 : r % 500 / 100 = r / 100 - 5 := by omega
      rw [e0, e6, dp_high Numeral.C Numeral.D Numeral.M _ (by omega) (by omega)]
      simp

/-- Closed form of the whole encoder: the greedy pair loops emit the `M`
repetitions followed by the canonical digit segment of each decimal digit. -/
theorem encodeN_decomp (m : Nat) :
    Roman.encodeN m
      = List.replicate (m / 1000) Numeral.M
        ++ digitPart Numeral.C Numeral.D Numeral.M (m / 100 % 10)
        ++ digitPart Numeral.X Numeral.L Numeral.C (m / 10 % 10)
        ++ digitPart Numeral.I Numeral.V Numeral.X (m % 10) := by
  rw [encodeN_eq_runTail, Roman.romanPairs, runTailCM]
  split_ifs with h
  · have e1 : m % 1000 - 900 = m % 100 := by omega
    have e2 : m / 100 % 10 = 9 := by omega
    rw [e1, e2, stageCD _ (by omega)]
    have e3 : m % 100 / 100 = 0 := by omega
    have e4 : m % 100 / 10 % 10 = m / 10 % 10 := by omega
    have e5 : m % 100 % 10 = m % 10 := by omega
    rw [e3, e4, e5]
    simp [digitPart]
  · rw [stageCD _ (by omega)]
    have e3 : m % 1000 / 100 = m / 100 % 10 := by omega
    have e4 : m % 1000 / 10 % 10 = m / 10 % 10 := by omega
    have e5 : m % 1000 % 10 = m % 10 := by omega
    rw [e3, e4, e5]
    simp [List.append_assoc]

/-! ## Checked decode of the encoder output -/

theorem vca_nil (s : Int × Int) : Roman.valueCheckedAux [] s = some s := rfl

theorem ite_max (mx n : Int) : (if mx < n then n else mx) = max mx n := by
  rcases le_or_lt n mx with h | h
  · rw [if_neg (not_lt.mpr h), max_eq_left h]
  · rw [if_pos h, max_eq_right h.le]

theorem vca_cons (n : Int) (rest : List Int) (s : Int × Int) :
    Roman.valueCheckedAux (n :: rest) s =
      if -32768 ≤ s.1 + (if s.2 ≤ n then n else -n)
          ∧ s.1 + (if s.2 ≤ n then n else -n) ≤ 32767
      then Roman.valueCheckedAux rest
        (s.1 + (if s.2 ≤ n then n else -n), if s.2 < n then n else s.2)
      else none := by
  rw [Roman.valueCheckedAux, Roman.checkedAdd]
  split_ifs <;> rfl

theorem vca_step_add (n : Int) (rest : List Int) (t mx : Int) (hmx : mx ≤ n)
    (hlo : -32768 ≤ t + n) (hhi : t + n ≤ 32767) :
    Roman.valueCheckedAux (n :: rest) (t, mx)
      = Roman.valueCheckedAux rest (t + n, max mx n) := by
  rw [vca_cons]
  dsimp only
  rw [if_pos hmx, if_pos ⟨hlo, hhi⟩, ite_max]

theorem vca_append : ∀ (a b : List Int) (s : Int × Int),
    Roman.valueCheckedAux (a ++ b) s
      = (Roman.valueCheckedAux a s).bind (fun s2 => Roman.valueCheckedAux b s2) := by
  intro a
  induction a with
  | nil => intro b s; rfl
  | cons n rest ih =>
    intro b s
    rw [List.cons_append, Roman.valueCheckedAux]
    conv_rhs => rw [Roman.valueCheckedAux]
    rcases hadd : Roman.checkedAdd s.1 (if s.2 ≤ n then n else -n) with _ | u
    · rfl
    · exact ih b _

/-- Largest weight appearing in the units segment of a digit. -/
def unitMax : Nat → Int
  | 0 => 0
  | 1 => 1
  | 2 => 1
  | 3 => 1
  | 4 => 5
  | 5 => 5
  | 6 => 5
  | 7 => 5
  | 8 => 5
  | 9 => 10
  | _ => 0

/-- Running maximum after the tens segment of a digit (`mx` entering). -/
def tenMax (mx : Int) : Nat → Int
  | 0 => mx
  | 9 => 100
  | d => if d ≤ 3 then 10 else 50

/-- Running maximum after the hundreds segment of a digit (`mx` entering). -/
def hunMax (mx : Int) : Nat → Int
  | 0 => mx
  | 9 => 1000
  | d => if d ≤ 3 then 100 else 500

theorem unitMax_mem (d : Nat) (hd : d < 10) :
    unitMax d = 0 ∨ unitMax d = 1 ∨ unitMax d = 5 ∨ unitMax d = 10 := by
  interval_cases d <;> simp [unitMax]

theorem tenMax_mem (mx : Int) (d : Nat)
    (hmx : mx = 0 ∨ mx = 1 ∨ mx = 5 ∨ mx = 10) (hd : d < 10) :
    tenMax mx d = 0 ∨ tenMax mx d = 1 ∨ tenMax mx d = 5 ∨ tenMax mx d = 10
      ∨ tenMax mx d = 50 ∨ tenMax mx d = 100 := by
  rcases hmx with rfl | rfl | rfl | rfl <;> interval_cases d <;> simp [tenMax]

theorem hunMax_bounds (mx : Int) (d : Nat)
    (hmx : mx = 0 ∨ mx = 1 ∨ mx = 5 ∨ mx = 10 ∨ mx = 50 ∨ mx = 100) (hd : d < 10) :
    0 ≤ hunMax mx d ∧ hunMax mx d ≤ 1000 := by
  rcases hmx with rfl | rfl | rfl | rfl | rfl | rfl <;> interval_cases d <;>
    simp [hunMax]

set_option linter.unreachableTactic false
set_option linter.unusedTactic false

theorem vcaUnit (t : Int) (d : Nat) (hd : d < 10) (h0 : 0 ≤ t)
    (h1 : t + 10 ≤ 32767) :
    Roman.valueCheckedAux
        (((digitPart Numeral.I Numeral.V Numeral.X d).map Numeral.value).reverse)
        (t, 0)
      = some (t + (d : Int), unitMax d) := by
  interval_cases d <;>
    (simp only [digitPart, List.map_cons, List.map_nil, List.reverse_cons,
      List.reverse_nil, List.nil_append, List.cons_append, List.singleton_append,
      List.append_nil, Numeral.value, vca_cons, vca_nil, unitMax]
     norm_num
     all_goals try split_ifs
     all_goals
       first
         | rfl
         | omega
         | (exfalso; omega)
         | (simp only [Option.some.injEq, Prod.mk.injEq]; omega))

theorem vcaTen (t mx : Int) (d : Nat) (hd : d < 10)
    (hmx : mx = 0 ∨ mx = 1 ∨ mx = 5 ∨ mx = 10)
    (h0 : 0 ≤ t) (h1 : t + 100 ≤ 32767) :
    Roman.valueCheckedAux
        (((digitPart Numeral.X Numeral.L Numeral.C d).map Numeral.value).reverse)
        (t, mx)
      = some (t + 10 * (d : Int), tenMax mx d) := by
  rcases hmx with rfl | rfl | rfl | rfl <;> interval_cases d <;>
    (simp only [digitPart, List.map_cons, List.map_nil, List.reverse_cons,
      List.reverse_nil, List.nil_append, List.cons_append, List.singleton_append,
      List.append_nil, Numeral.value, vca_cons, vca_nil, tenMax]
     norm_num
     all_goals try split_ifs
     all_goals
       first
         | rfl
         | omega
         | (exfalso; omega)
         | (simp only [Option.some.injEq, Prod.mk.injEq]; omega))

theorem vcaHun (t mx : Int) (d : Nat) (hd : d < 10)
    (hmx : mx = 0 ∨ mx = 1 ∨ mx = 5 ∨ mx = 10 ∨ mx = 50 ∨ mx = 100)
    (h0 : 0 ≤ t) (h1 : t + 1000 ≤ 32767) :
    Roman.valueCheckedAux
        (((digitPart Numeral.C Numeral.D Numeral.M d).map Numeral.value).reverse)
        (t, mx)
      = some (t + 100 * (d : Int), hunMax mx d) := by
  rcases hmx with rfl | rfl | rfl | rfl | rfl | rfl <;> interval_cases d <;>
    (simp only [digitPart, List.map_cons, List.map_nil, List.reverse_cons,
      List.reverse_nil, List.nil_append, List.cons_append, List.singleton_append,
      List.append_nil, Numeral.value, vca_cons, vca_nil, hunMax]
     norm_num
     all_goals try split_ifs
     all_goals
       first
         | rfl
         | omega
         | (exfalso; omega)
         | (simp only [Option.some.injEq, Prod.mk.injEq]; omega))

theorem vcaM (q : Nat) : ∀ (t mx : Int), 0 ≤ mx → mx ≤ 1000 → 0 ≤ t →
    t + 1000 * q ≤ 32767 →
    Roman.valueCheckedAux (List.replicate q (1000 : Int)) (t, mx)
      = some (t + 1000 * (q : Int), if q = 0 then mx else 1000) := by
  induction q with
  | zero =>
    intro t mx hmx0 hmx h0 h1
    rw [List.replicate_zero, vca_nil]
    norm_num
  | succ k ih =>
    intro t mx hmx0 hmx h0 h1
    rw [List.replicate_succ]
    rw [vca_step_add 1000 (List.replicate k (1000 : Int)) t mx (by omega)
      (by omega) (by omega)]
    rw [ih (t + 1000) (max mx 1000) (by omega) (by omega) (by omega) (by omega)]
    have hmax : max mx 1000 = (1000 : Int) := by omega
    rw [hmax, ite_self, if_neg (Nat.succ_ne_zero k)]
    simp only [Option.some.injEq, Prod.mk.injEq]
    constructor
    · push_cast
      ring
    · trivial

theorem vcaTho (t mx : Int) (q : Nat) (hmx0 : 0 ≤ mx) (hmx : mx ≤ 1000)
    (h0 : 0 ≤ t) (h1 : t + 1000 * q ≤ 32767) :
    Roman.valueCheckedAux
        (((List.replicate q Numeral.M).map Numeral.value).reverse) (t, mx)
      = some (t + 1000 * (q : Int), if q = 0 then mx else 1000) := by
  rw [List.map_replicate, List.reverse_replicate]
  simp only [Numeral.value]
  exact vcaM q t mx hmx0 hmx h0 h1

/-- Checked decode of the encoder output: for `m ≤ 32767` every step stays
inside the 16-bit range and the total comes back out as `m`. -/
theorem value_checked_encodeN (m : Nat) (hm : m ≤ 32767) :
    Roman.value_checked (Roman.encodeN m) = some (m : Int) := by
  have hu : m % 10 < 10 := by omega
  have ht : m / 10 % 10 < 10 := by omega
  have hh : m / 100 % 10 < 10 := by omega
  rw [Roman.value_checked, encodeN_decomp]
  simp only [List.map_append, List.reverse_append, vca_append]
  rw [vcaUnit 0 (m % 10) hu (by norm_num) (by omega)]
  simp only [Option.some_bind]
  rw [vcaTen (0 + ((m % 10 : Nat) : Int)) (unitMax (m % 10)) (m / 10 % 10) ht
    (unitMax_mem (m % 10) hu) (by omega) (by omega)]
  simp only [Option.some_bind]
  rw [vcaHun (0 + ((m % 10 : Nat) : Int) + 10 * ((m / 10 % 10 : Nat) : Int))
    (tenMax (unitMax (m % 10)) (m / 10 % 10)) (m / 100 % 10) hh
    (tenMax_mem (unitMax (m % 10)) (m / 10 % 10) (unitMax_mem (m % 10) hu) ht)
    (by omega) (by omega)]
  simp only [Option.some_bind]
  have hb := hunMax_bounds (tenMax (unitMax (m % 10)) (m / 10 % 10)) (m / 100 % 10)
    (tenMax_mem (unitMax (m % 10)) (m / 10 % 10) (unitMax_mem (m % 10) hu) ht) hh
  rw [vcaTho
    (0 + ((m % 10 : Nat) : Int) + 10 * ((m / 10 % 10 : Nat) : Int)
      + 100 * ((m / 100 % 10 : Nat) : Int))
    (hunMax (tenMax (unitMax (m % 10)) (m / 10 % 10)) (m / 100 % 10))
    (m / 1000) hb.1 hb.2 (by omega) (by omega)]
  rw [Option.map_some']
  simp only [Option.some.injEq]
  omega

theorem value_eq_of_checked (ns : List Numeral) (v : Int)
    (h : Roman.value_checked ns = some v) : Roman.value ns = v := by
  rw [Roman.value_checked] at h
  obtain ⟨t, ht, hv⟩ := Option.map_eq_some'.mp h
  rw [Roman.value, vca_sound _ _ _ ht]
  exact hv

/-- C1: for every integer `1 <= n <= 32767`, encoding succeeds and both the
unchecked and the checked decode of the encoding give back `n`. -/
theorem claim_C1_roundtrip (n : Int) (h1 : 1 ≤ n) (h2 : n ≤ 32767) :
    ∃ s, Roman.fromI16 n = some s ∧ Roman.value s = n
      ∧ Roman.value_checked s = some n := by
  have hc : Roman.value_checked (Roman.encodeN n.toNat)
      = some ((n.toNat : Nat) : Int) := value_checked_encodeN n.toNat (by omega)
  have hn : ((n.toNat : Nat) : Int) = n := Int.toNat_of_nonneg (by omega)
  rw [hn] at hc
  refine ⟨Roman.encodeN n.toNat, ?_, value_eq_of_checked _ _ hc, hc⟩
  rw [Roman.fromI16, if_neg (by omega)]

/-- C1 witness: the round trip at the concrete input 1994. -/
theorem claim_C1_witness :
    ∃ s, Roman.fromI16 1994 = some s ∧ Roman.value s = 1994
      ∧ Roman.value_checked s = some 1994 :=
  claim_C1_roundtrip 1994 (by norm_num) (by norm_num)

/-! ## Encode: spec-side description (refinement for C3) -/

/-- One pair iteration exactly as §4.2 of the spec words it: append the
primary once per multiple of its weight still contained in the remainder,
then append secondary-then-primary once when the remainder reaches
`primary - secondary`. -/
def specStep (st : Nat × List Numeral) (p : Numeral × Numeral) : Nat × List Numeral :=
  let r1 := st.1 % p.2.valueN
  let base := st.2 ++ List.replicate (st.1 / p.2.valueN) p.2
  let d := p.2.valueN - p.1.valueN
  if d ≤ r1 then (r1 - d, base ++ [p.1, p.2]) else (r1, base)

/-- Spec-side encoder: fold the six `(secondary, primary)` pairs from
largest to smallest, then emit the remainder (necessarily < 4) as repeated
`I`. -/
def encodeSpec (m : Nat) : List Numeral :=
  let fin := Roman.romanPairs.foldl specStep (m, [])
  fin.2 ++ List.replicate fin.1 Numeral.I

theorem foldl_specStep :
    ∀ (ps : List (Numeral × Numeral)) (m : Nat) (acc : List Numeral),
      ps.foldl specStep (m, acc)
        = ((Roman.pairsRun ps m).1, acc ++ (Roman.pairsRun ps m).2) := by
  intro ps
  induction ps with
  | nil =>
    intro m acc
    simp [Roman.pairsRun]
  | cons p rest ih =>
    intro m acc
    rcases p with ⟨sec, pri⟩
    have hsub : Roman.subPair sec pri m =
        if pri.valueN - sec.valueN ≤ m % pri.valueN then
          (m % pri.valueN - (pri.valueN - sec.valueN),
           List.replicate (m / pri.valueN) pri ++ [sec, pri])
        else (m % pri.valueN, List.replicate (m / pri.valueN) pri) := by
      simp only [Roman.subPair, primaryRun_eq]
    rw [List.foldl_cons]
    by_cases hd : pri.valueN - sec.valueN ≤ m % pri.valueN
    · have hstep : specStep (m, acc) (sec, pri)
          = (m % pri.valueN - (pri.valueN - sec.valueN),
             acc ++ (List.replicate (m / pri.valueN) pri ++ [sec, pri])) := by
        simp only [specStep]
        rw [if_pos hd]
        simp [List.append_assoc]
      rw [hstep, ih]
      simp only [Roman.pairsRun]
      rw [hsub, if_pos hd]
      simp [List.append_assoc]
    · have hstep : specStep (m, acc) (sec, pri)
          = (m % pri.valueN, acc ++ List.replicate (m / pri.valueN) pri) := by
        simp only [specStep]
        rw [if_neg hd]
      rw [hstep, ih]
      simp only [Roman.pairsRun]
      rw [hsub, if_neg hd]
      simp [List.append_assoc]

/-- C3: the encoder is exactly the greedy subtractive-lookahead algorithm
over the six `(secondary, primary)` pairs followed by trailing `I`s, and in
particular `encode(4) = IV`, `encode(9) = IX`, `encode(40) = XL`,
`encode(1994) = MCMXCIV`. -/
theorem claim_C3_encode_greedy :
    (∀ m : Nat, Roman.encodeN m = encodeSpec m)
    ∧ Roman.fromI16 4 = some [Numeral.I, Numeral.V]
    ∧ Roman.fromI16 9 = some [Numeral.I, Numeral.X]
    ∧ Roman.fromI16 40 = some [Numeral.X, Numeral.L]
    ∧ Roman.fromI16 1994 = some [Numeral.M, Numeral.C, Numeral.M, Numeral.X,
        Numeral.C, Numeral.I, Numeral.V] := by
  refine ⟨?_, ?_, ?_, ?_, ?_⟩
  · intro m
    have h := foldl_specStep Roman.romanPairs m []
    simp only [Roman.encodeN, encodeSpec, h, List.nil_append, trailingI_replicate]
  · rw [Roman.fromI16, if_neg (by norm_num)]
    rw [show ((4 : Int).toNat) = 4 from rfl, encodeN_decomp]
    rfl
  · rw [Roman.fromI16, if_neg (by norm_num)]
    rw [show ((9 : Int).toNat) = 9 from rfl, encodeN_decomp]
    rfl
  · rw [Roman.fromI16, if_neg (by norm_num)]
    rw [show ((40 : Int).toNat) = 40 from rfl, encodeN_decomp]
    rfl
  · rw [Roman.fromI16, if_neg (by norm_num)]
    rw [show ((1994 : Int).toNat) = 1994 from rfl, encodeN_decomp]
    rfl

/-- C7: the renderings map each symbol through the character table and
concatenate in order with no separators, and `encode(134)` renders as
`"CXXXIV"` and `"cxxxiv"`. -/
theorem claim_C7_render :
    (∀ a b : List Numeral, Roman.render_upper (a ++ b)
        = Roman.render_upper a ++ Roman.render_upper b)
    ∧ (∀ n : Numeral, Roman.render_upper [n] = [n.ascii_upper])
    ∧ (∀ a b : List Numeral, Roman.render_lower (a ++ b)
        = Roman.render_lower a ++ Roman.render_lower b)
    ∧ (∀ n : Numeral, Roman.render_lower [n] = [n.ascii_lower])
    ∧ (∃ s, Roman.fromI16 134 = some s
        ∧ Roman.render_upper s = "CXXXIV".toList
        ∧ Roman.render_lower s = "cxxxiv".toList) := by
  have h134 : Roman.encodeN 134 = [Numeral.C, Numeral.X, Numeral.X, Numeral.X,
      Numeral.I, Numeral.V] := by
    rw [encodeN_decomp]
    rfl
  refine ⟨fun a b => List.map_append _ a b, fun n => rfl,
    fun a b => List.map_append _ a b, fun n => rfl,
    ⟨Roman.encodeN 134, ?_, ?_, ?_⟩⟩
  · rw [Roman.fromI16, if_neg (by norm_num)]
    rfl
  · rw [h134]
    rfl
  · rw [h134]
    rfl
